import Mathlib

/-!
# Verification of the NextStyle runtime CSS-in-JS engine

A shallow embedding of the NextStyle style-object compiler
(`src/unnamed/part_002`, the variant with the global-rule accumulator,
which the claims cite as authority) together with proofs of the
frozen claims about it.

Modelling conventions:
* JavaScript values appearing inside style descriptions are modelled by
  `StyleVal`: `null`, strings, numbers (carried as their decimal
  rendering, since only their string rendering is ever consumed),
  arrays and objects.  Objects and the JS `Map` are modelled as
  insertion-ordered association lists, mirroring JS enumeration order.
* The downstream PostCSS/autoprefixer transform is an external
  collaborator that the specification places out of scope and treats as
  an opaque memoized text-to-text function; it is modelled as the
  identity (`postcssTransform`), and its process-wide memo cache is
  omitted because memoizing a pure function is observationally neutral.
* `String.charCodeAt` coincides with `Char.toNat` for the
  basic-multilingual-plane characters that occur in serialized seeds.
-/

/-- A JavaScript value inside a style description: `null`, a string, a
number (carried as its decimal rendering), an array, or an object
modelled as an insertion-ordered association list. -/
inductive StyleVal : Type where
  | null : StyleVal
  | str (s : String) : StyleVal
  | num (rendering : String) : StyleVal
  | arr (items : List StyleVal) : StyleVal
  | obj (entries : List (String × StyleVal)) : StyleVal
deriving Repr

/-- A style description: the entries of a JS object in insertion order. -/
abbrev Style := List (String × StyleVal)

/-- JSON escaping of a single character, as `JSON.stringify` performs on
string contents (quote, backslash and the common control characters). -/
def jsonEscapeChar (c : Char) : String :=
  if c = '\\' then "\\\\"
  else if c = '\"' then "\\\""
  else if c = '\n' then "\\n"
  else if c = '\t' then "\\t"
  else if c = '\r' then "\\r"
  else String.singleton c

/-- `JSON.stringify` of a string value: quoted, contents escaped. -/
def jsonString (s : String) : String :=
  "\"" ++ String.join (s.toList.map jsonEscapeChar) ++ "\""

/-- Source `toKebabCase`, per character: an ASCII uppercase letter is
replaced by a hyphen followed by its lowercase form (the JS regex
`[A-Z]` matches ASCII uppercase only, as does `Char.isUpper`). -/
def kebabChar (c : Char) : String :=
  if c.isUpper then "-" ++ String.singleton c.toLower else String.singleton c

/-- Source `toKebabCase`: `prop.replace( /[A-Z]/g, m => "-" + m.toLowerCase() )`. -/
def toKebabCase (prop : String) : String :=
  String.join (prop.toList.map kebabChar)

/-- The 64-bit FNV-1a offset basis `0xcbf29ce484222325` from `createHashName`. -/
def fnvOffsetBasis : Nat := 0xcbf29ce484222325

/-- The 64-bit FNV prime `0x100000001b3` from `createHashName`. -/
def fnvPrime : Nat := 0x100000001b3

/-- The mask `0xffffffffffffffff` applied after every step. -/
def mask64 : Nat := 0xffffffffffffffff

/-- The hash loop of `createHashName`: xor in the character code, multiply
by the prime, mask to 64 bits, starting from the offset basis. -/
def fnv1a64 (seed : String) : Nat :=
  seed.toList.foldl (fun h c => ((h ^^^ c.toNat) * fnvPrime) &&& mask64) fnvOffsetBasis

/-- Base-36 digit characters `0-9a-z`, as produced by JS `toString(36)`. -/
def base36Digit (n : Nat) : Char :=
  if n < 10 then Char.ofNat (48 + n) else Char.ofNat (87 + n)

/-- Digit list (most significant first) of `n` in base 36; empty for 0.
The recursion is driven by a fuel argument (any fuel above the digit
count computes the digits; `toBase36` passes `n + 1`, which always
suffices) so that the definition is structurally recursive and reduces
inside the kernel. -/
def toBase36Aux : Nat → Nat → List Char
  | 0, _ => []
  | fuel + 1, n =>
      if n = 0 then []
      else toBase36Aux fuel (n / 36) ++ [base36Digit (n % 36)]

/-- JS `BigInt.prototype.toString(36)` for a nonnegative value:
base-36 digits, most significant first, `"0"` for zero. -/
def toBase36 (n : Nat) : List Char :=
  if n = 0 then ['0'] else toBase36Aux (n + 1) n

/-- Source `createHashName`: FNV-1a-style 64-bit hash of the seed,
rendered in base 36 and truncated by `slice(0, 9)` to the first
(at most) nine characters. -/
def createHashName (seed : String) : String :=
  String.mk ((toBase36 (fnv1a64 seed)).take 9)

/-- The key comparison used to sort rendered object entries, mirroring
`Object.keys(value).sort()` (lexicographic UTF-16 order, which on the
ASCII keys in use coincides with `String` order). -/
def keyLe (a b : String × String) : Prop := a.1 ≤ b.1

instance : DecidableRel keyLe := fun a b => inferInstanceAs (Decidable (a.1 ≤ b.1))

instance : IsTotal (String × String) keyLe := ⟨fun a b => le_total a.1 b.1⟩

instance : IsTrans (String × String) keyLe := ⟨fun _ _ _ h1 h2 => le_trans h1 h2⟩

/-- Classifies the JS scalars of the style domain: strings and numbers
(`typeof value` neither `"object"` nor nullish). -/
def isScalarVal : StyleVal → Bool
  | .str _ => true
  | .num _ => true
  | _ => false

/-- Source `stableStringify`.  `null` and scalars go through
`JSON.stringify`; arrays keep element order; objects are rendered with
their keys sorted lexicographically (`Object.keys(value).sort()`; since
JS object keys are unique, sorting the key list and indexing into the
object is the same as sorting the entry list by key, which is how the
embedding phrases it — with unique keys every comparison sort computes
the same list). -/
def stableStringify : StyleVal → String
  | .null => "null"
  | .str s => jsonString s
  | .num n => n
  | .arr items => "[" ++ String.intercalate "," (stringifyList items) ++ "]"
  | .obj entries =>
      "\x7b" ++
        String.intercalate ","
          ((List.insertionSort keyLe (stringifyEntries entries)).map
            (fun e => jsonString e.1 ++ ":" ++ e.2)) ++
      "\x7d"
where
  /-- `value.map(stableStringify)` for array elements (order preserved). -/
  stringifyList : List StyleVal → List String
    | [] => []
    | v :: rest => stableStringify v :: stringifyList rest
  /-- Each object entry paired with the stable stringification of its value. -/
  stringifyEntries : List (String × StyleVal) → List (String × String)
    | [] => []
    | e :: rest => (e.1, stableStringify e.2) :: stringifyEntries rest

/-- JS string interpolation of a value (`ToString`): strings and numbers
render as themselves, `null` as `"null"`, arrays join their rendered
elements with commas, plain objects render as `"[object Object]"`. -/
def renderValue : StyleVal → String
  | .null => "null"
  | .str s => s
  | .num n => n
  | .arr items => String.intercalate "," (renderList items)
  | .obj _ => "[object Object]"
where
  renderList : List StyleVal → List String
    | [] => []
    | v :: rest => renderValue v :: renderList rest

/-- JS `key.startsWith("_")` for the one-character underscore sigil:
true exactly when the first character is `_`.  (Stated on the character
list so that it reduces inside the kernel; `String.startsWith` itself is
compiled by well-founded recursion.) -/
def startsWithUnderscore (key : String) : Bool :=
  match key.toList with
  | [] => false
  | c :: _ => c == '_'

/-- The declaration produced by one entry of the top-level loop of
`serializeNested`: skipped when the value is `null`/an object/an array
(`value == null || typeof value === "object"`) or the key starts with
the underscore sigil; otherwise `toKebabCase(key) + ":" + value`. -/
def declOf (key : String) (value : StyleVal) : Option String :=
  match value with
  | .null => none
  | .obj _ => none
  | .arr _ => none
  | .str s => if startsWithUnderscore key then none
              else some (toKebabCase key ++ ":" ++ s)
  | .num n => if startsWithUnderscore key then none
              else some (toKebabCase key ++ ":" ++ n)

/-- The serialization context of `serializeNested`: current selector and
optional current media condition. -/
structure SerializeContext where
  selector : String
  media : Option String := none
deriving Repr

/-- Source `mergeMedia`: absent conditions pass the other side through;
two present conditions are joined with `" and "`.  (JS tests falsiness;
the empty string never arises as a media condition because the fixed
breakpoint strings are nonempty, so `Option` captures the behavior.) -/
def mergeMedia (parent current : Option String) : Option String :=
  match parent, current with
  | none, c => c
  | some p, none => some p
  | some p, some c => some (p ++ " and " ++ c)

/-- Looks up a reserved key and returns its entries when the stored value
is an object.  In the source the values of the reserved keys are typed
`NextStyleObject`, hence always objects; a falsy value is skipped by
`if (!value) continue`.  A truthy NON-object value at a reserved key is
outside the declared type and outside this model: there the untyped JS
source would recurse into the scalar (enumerating string indices), while
this model skips it — no theorem below quantifies over that region. -/
def lookupObj (key : String) (style : Style) : Option Style :=
  match List.lookup key style with
  | some (.obj e) => some e
  | _ => none

/-- Nesting depth of a style value: scalars have depth 0, arrays and
objects one more than their deepest member.  Used only to drive the
fuel of `serializeNestedAux`. -/
def styleDepth : StyleVal → Nat
  | .null => 0
  | .str _ => 0
  | .num _ => 0
  | .arr items => 1 + depthList items
  | .obj entries => 1 + depthEntries entries
where
  depthList : List StyleVal → Nat
    | [] => 0
    | v :: rest => max (styleDepth v) (depthList rest)
  depthEntries : List (String × StyleVal) → Nat
    | [] => 0
    | e :: rest => max (styleDepth e.2) (depthEntries rest)

/-- The recursion of the source `serializeNested`, driven by a fuel
argument so that the definition is structurally recursive (and hence
reduces inside the kernel).  Each recursive call goes one nesting level
down, so any fuel at least the nesting depth of the style computes the
function; `serializeNested` passes exactly the depth, which always
suffices (`serializeNestedAux_irrel` proves fuel irrelevance, and
`serializeNested_eq` recovers the recursive equation of the source, making
the zero-fuel branch dead code).

The body mirrors the source: the scalar declarations of the current
level joined with `";"` form the base rule (wrapped in `@media` when a
condition is active), then the three pseudo-state keys are visited in
fixed order with the selector extended by `:<state>` and the media
condition unchanged, then the five breakpoint keys in fixed order with
the selector unchanged and the media condition merged with the
fixed condition string of the breakpoint. -/
def serializeNestedAux : Nat → Style → SerializeContext → String
  | 0, _, _ => ""
  | fuel + 1, style, ctx =>
    let declarations := style.filterMap (fun e => declOf e.1 e.2)
    let base :=
      if declarations.isEmpty then ""
      else
        let rule := ctx.selector ++ "\x7b" ++ String.intercalate ";" declarations ++ "\x7d"
        match ctx.media with
        | some m => "@media " ++ m ++ "\x7b" ++ rule ++ "\x7d"
        | none => rule
    base
      ++ (match lookupObj "_hover" style with
          | some e => serializeNestedAux fuel e ⟨ctx.selector ++ ":" ++ "hover", ctx.media⟩
          | none => "")
      ++ (match lookupObj "_focus" style with
          | some e => serializeNestedAux fuel e ⟨ctx.selector ++ ":" ++ "focus", ctx.media⟩
          | none => "")
      ++ (match lookupObj "_active" style with
          | some e => serializeNestedAux fuel e ⟨ctx.selector ++ ":" ++ "active", ctx.media⟩
          | none => "")
      ++ (match lookupObj "_sm" style with
          | some e => serializeNestedAux fuel e ⟨ctx.selector, mergeMedia ctx.media (some "(min-width:640px)")⟩
          | none => "")
      ++ (match lookupObj "_md" style with
          | some e => serializeNestedAux fuel e ⟨ctx.selector, mergeMedia ctx.media (some "(min-width:768px)")⟩
          | none => "")
      ++ (match lookupObj "_lg" style with
          | some e => serializeNestedAux fuel e ⟨ctx.selector, mergeMedia ctx.media (some "(min-width:1024px)")⟩
          | none => "")
      ++ (match lookupObj "_xl" style with
          | some e => serializeNestedAux fuel e ⟨ctx.selector, mergeMedia ctx.media (some "(min-width:1280px)")⟩
          | none => "")
      ++ (match lookupObj "_xxl" style with
          | some e => serializeNestedAux fuel e ⟨ctx.selector, mergeMedia ctx.media (some "(min-width:1536px)")⟩
          | none => "")

/-- Source `serializeNested` (see `serializeNestedAux` for the body and
`serializeNested_eq` for the recursive equation it satisfies). -/
def serializeNested (style : Style) (ctx : SerializeContext) : String :=
  serializeNestedAux (styleDepth (.obj style)) style ctx

/-! ## The JS `Map` model

A JavaScript `Map` preserves insertion order.  `set` on an existing key
updates the value in place (the entry keeps its position); `delete`
removes the entry, so a `delete` followed by `set` re-inserts the entry
at the end.  The embedding models a map as an association list in
insertion order. -/

/-- `Map.prototype.has`. -/
def mapHas {α : Type} (key : String) (l : List (String × α)) : Bool :=
  l.any (fun e => e.1 == key)

/-- `Map.prototype.get` (`none` for a missing key). -/
def mapGet {α : Type} (key : String) (l : List (String × α)) : Option α :=
  List.lookup key l

/-- In-place value replacement for the entry whose key matches (the
entry keeps its position); other entries are untouched. -/
def mapReplace {α : Type} (key : String) (v : α) : List (String × α) → List (String × α)
  | [] => []
  | e :: rest =>
      match e.1 == key with
      | true => (key, v) :: mapReplace key v rest
      | false => e :: mapReplace key v rest

/-- `Map.prototype.set`: in-place update when the key is present,
append at the end otherwise. -/
def mapSet {α : Type} (key : String) (v : α) (l : List (String × α)) :
    List (String × α) :=
  if mapHas key l then mapReplace key v l
  else l ++ [(key, v)]

/-- `Map.prototype.delete` (restricted to its effect on the entries). -/
def mapDelete {α : Type} (key : String) (l : List (String × α)) :
    List (String × α) :=
  l.filter (fun e => e.1 != key)

/-- Modelled from the spec: the downstream text transform
(PostCSS + autoprefixer) is placed OUT OF SCOPE by §1 of the
specification and "consumed as an opaque function: `text → text`,
memoized externally by exact input string".  It is modelled as the
identity; the memo cache is omitted since memoizing a pure function is
observationally neutral. -/
def postcssTransform (cssText : String) : String := cssText

/-- The facade state: the class-name prefix (source field `prefix`,
renamed here), the insertion-ordered rule store, and the global-rule
accumulator `globalStore`. -/
structure NextStyle where
  pfx : String
  rules : List (String × String) := []
  globalStore : List (String × Style) := []

/-- `new NextStyle(prefix = "next")`. -/
def NextStyle.make (pfx : String := "next") : NextStyle := ⟨pfx, [], []⟩

/-- Source `NextStyle.css`: serialize the style for the seed, hash it
into `<prefix>_<token>`, and compile-and-store under `class:<name>`
only when that rule key is not yet present. -/
def NextStyle.css (ns : NextStyle) (style : Style) : String × NextStyle :=
  let seed := stableStringify (.obj style)
  let hash := createHashName seed
  let className := ns.pfx ++ "_" ++ hash
  let key := "class:" ++ className
  if mapHas key ns.rules then (className, ns)
  else
    let raw := serializeNested style ⟨"." ++ className, none⟩
    let cssText := postcssTransform raw
    (className, { ns with rules := mapSet key cssText ns.rules })

/-- JS object spread of two objects: the keys of the first operand keep
their positions (values overridden by the second operand where the key
reoccurs), and keys only in the second operand are appended in its
order. -/
def mergeStyle (prev style : Style) : Style :=
  prev.map (fun e =>
    match List.lookup e.1 style with
    | some v => (e.1, v)
    | none => e)
  ++ style.filter (fun e => !(mapHas e.1 prev))

/-- Source `NextStyle.global`: shallow-merge the new description into
the accumulated description for the selector, store the merge in
`globalStore`, recompile the entire merged description, transform, and
then `delete`-and-`set` the rule text under `global:<selector>`. -/
def NextStyle.global (ns : NextStyle) (selector : String) (style : Style) :
    NextStyle :=
  let key := "global:" ++ selector
  let prev := (mapGet key ns.globalStore).getD []
  let merged := mergeStyle prev style
  let store1 := mapSet key merged ns.globalStore
  let raw := serializeNested merged ⟨selector, none⟩
  let cssText := postcssTransform raw
  let rules1 := if mapHas key ns.rules then mapDelete key ns.rules else ns.rules
  { ns with globalStore := store1, rules := mapSet key cssText rules1 }

/-- Source `NextStyle.root`: delegates to `global(":root", style)`. -/
def NextStyle.root (ns : NextStyle) (style : Style) : NextStyle :=
  ns.global ":root" style

/-- Source `NextStyle.keyframes`: hash the frames for the animation
name, and compile-and-store under `@keyframes:<name>` only when that
rule key is not yet present; the generated name is returned either way. -/
def NextStyle.keyframes (ns : NextStyle) (frames : List (String × Style)) :
    String × NextStyle :=
  let seed := stableStringify (.obj (frames.map (fun f => (f.1, StyleVal.obj f.2))))
  let hash := createHashName seed
  let name := ns.pfx ++ "_" ++ hash
  let key := "@keyframes:" ++ name
  if mapHas key ns.rules then (name, ns)
  else
    let body := String.join (frames.map (fun f =>
      f.1 ++ "\x7b " ++
        String.intercalate ";"
          (f.2.map (fun p => toKebabCase p.1 ++ ":" ++ renderValue p.2)) ++
      " \x7d"))
    let cssText := postcssTransform ("@keyframes " ++ name ++ "\x7b " ++ body ++ " \x7d")
    (name, { ns with rules := mapSet key cssText ns.rules })

/-- Source `NextStyle.fontFace`: hash the definition, and
compile-and-store under `@font-face:<hash>` only when that rule key is
not yet present. -/
def NextStyle.fontFace (ns : NextStyle) (font : Style) : NextStyle :=
  let seed := stableStringify (.obj font)
  let hash := createHashName seed
  let key := "@font-face:" ++ hash
  if mapHas key ns.rules then ns
  else
    let declarations :=
      String.intercalate ";"
        (font.map (fun p => toKebabCase p.1 ++ ":" ++ renderValue p.2))
    let cssText := postcssTransform ("@font-face\x7b " ++ declarations ++ " \x7d")
    { ns with rules := mapSet key cssText ns.rules }

/-- Source `NextStyle.toTextCss`: `null` when the store is empty,
otherwise the stored rule texts concatenated in insertion order, each
followed by a newline. -/
def NextStyle.toTextCss (ns : NextStyle) : Option String :=
  if ns.rules.length = 0 then none
  else some (ns.rules.foldl (fun acc e => acc ++ e.2 ++ "\n") "")

/-- The relation builder: an immutable (facade, source class, optional
pseudo state) triple, as constructed by `NextStyle.when`. -/
structure RelationBuilder where
  ns : NextStyle
  source : String
  pseudo : Option String := none

/-- Source `NextStyle.when`: a builder with no pseudo state. -/
def NextStyle.when (ns : NextStyle) (source : String) : RelationBuilder :=
  ⟨ns, source, none⟩

/-- `RelationBuilder.hover`: a fresh builder with pseudo state `hover`. -/
def RelationBuilder.hover (b : RelationBuilder) : RelationBuilder :=
  ⟨b.ns, b.source, some "hover"⟩

/-- `RelationBuilder.focus`: a fresh builder with pseudo state `focus`. -/
def RelationBuilder.focus (b : RelationBuilder) : RelationBuilder :=
  ⟨b.ns, b.source, some "focus"⟩

/-- `RelationBuilder.active`: a fresh builder with pseudo state `active`. -/
def RelationBuilder.active (b : RelationBuilder) : RelationBuilder :=
  ⟨b.ns, b.source, some "active"⟩

/-- The optional `:<state>` suffix of the compound selector. -/
def pseudoSuffix : Option String → String
  | some s => ":" ++ s
  | none => ""

/-- Source `RelationBuilder.emit`: synthesize
`.<source><:state>?<combinator>.<target>` and delegate to the global-rule
operation of the facade. -/
def RelationBuilder.emit (b : RelationBuilder) (combinator target : String)
    (style : Style) : NextStyle :=
  let selector := "." ++ b.source ++ pseudoSuffix b.pseudo ++ combinator ++ "." ++ target
  b.ns.global selector style

/-- `adjacent`: combinator `+`. -/
def RelationBuilder.adjacent (b : RelationBuilder) (target : String)
    (style : Style) : NextStyle :=
  b.emit "+" target style

/-- `child`: combinator `>`. -/
def RelationBuilder.child (b : RelationBuilder) (target : String)
    (style : Style) : NextStyle :=
  b.emit ">" target style

/-- `sibling`: combinator `~`. -/
def RelationBuilder.sibling (b : RelationBuilder) (target : String)
    (style : Style) : NextStyle :=
  b.emit "~" target style

/-- `descendant`: combinator, a single space. -/
def RelationBuilder.descendant (b : RelationBuilder) (target : String)
    (style : Style) : NextStyle :=
  b.emit " " target style

/-! ## Simple facts about the JS `Map` model -/

theorem mapHas_false_iff {α : Type} {key : String} {l : List (String × α)} :
    mapHas key l = false ↔ ∀ e ∈ l, e.1 ≠ key := by
  simp [mapHas, List.any_eq_false]

theorem mapSet_of_not_has {α : Type} {key : String} {v : α} {l : List (String × α)}
    (h : mapHas key l = false) : mapSet key v l = l ++ [(key, v)] := by
  simp [mapSet, h]

theorem filter_key_eq_nil_of_not_has {α : Type} {key : String} {l : List (String × α)}
    (h : mapHas key l = false) : l.filter (fun e => e.1 == key) = [] := by
  rw [List.filter_eq_nil_iff]
  intro e he
  have := mapHas_false_iff.mp h e he
  simp [this]

theorem mapHas_append_singleton {α : Type} (key : String) (v : α) (l : List (String × α)) :
    mapHas key (l ++ [(key, v)]) = true := by
  simp [mapHas]

theorem mapHas_mapDelete_self {α : Type} (key : String) (l : List (String × α)) :
    mapHas key (mapDelete key l) = false := by
  rw [mapHas_false_iff]
  intro e he
  have := List.of_mem_filter he
  simpa using this

theorem mapDelete_of_not_has {α : Type} {key : String} {l : List (String × α)}
    (h : mapHas key l = false) : mapDelete key l = l := by
  unfold mapDelete
  rw [List.filter_eq_self]
  intro e he
  have := mapHas_false_iff.mp h e he
  simpa using this

theorem mem_mapDelete_of_ne {α : Type} {key : String} {l : List (String × α)}
    {e : String × α} (he : e ∈ l) (hne : e.1 ≠ key) : e ∈ mapDelete key l := by
  apply List.mem_filter.mpr
  exact ⟨he, by simpa using hne⟩

theorem mapDelete_subset {α : Type} {key : String} {l : List (String × α)}
    {e : String × α} (he : e ∈ mapDelete key l) : e ∈ l :=
  List.mem_of_mem_filter he

theorem mapGet_nil {α : Type} (key : String) : mapGet key ([] : List (String × α)) = none :=
  rfl

theorem mergeStyle_nil (d : Style) : mergeStyle [] d = d := by
  simp [mergeStyle, mapHas]

theorem lookupObj_mem {key : String} {style : Style} {e : Style}
    (h : lookupObj key style = some e) : (key, StyleVal.obj e) ∈ style := by
  unfold lookupObj at h
  induction style with
  | nil => simp [List.lookup] at h
  | cons hd tl ih =>
    rw [List.lookup] at h
    by_cases hk : key = hd.1
    · simp [hk] at h
      match hv : hd.2 with
      | .null | .str _ | .num _ | .arr _ => rw [hv] at h; cases h
      | .obj e0 =>
        rw [hv] at h
        simp at h
        have hhd : hd = (key, StyleVal.obj e) := by
          cases hd with
          | mk k v =>
            simp at hk hv
            rw [hk, hv, h]
        rw [hhd]
        exact List.mem_cons_self _ _
    · have : (key == hd.1) = false := by simp [hk]
      rw [this] at h
      simp at h
      right
      exact ih h

theorem lookupObj_depth {key : String} {style : Style} {e : Style}
    (h : lookupObj key style = some e) :
    styleDepth (.obj e) < styleDepth (.obj style) := by
  have hm := lookupObj_mem h
  have hle : ∀ (l : Style), (key, StyleVal.obj e) ∈ l →
      styleDepth (.obj e) ≤ styleDepth.depthEntries l := by
    intro l hl
    induction l with
    | nil => cases hl
    | cons hd tl ih =>
      rcases List.mem_cons.mp hl with heq | htl
      · rw [← heq]
        simp only [styleDepth.depthEntries]
        exact le_max_left _ _
      · simp only [styleDepth.depthEntries]
        exact le_max_of_le_right (ih htl)
  have := hle style hm
  simp [styleDepth] at this ⊢
  omega

theorem serializeNestedAux_irrel (fuel1 : Nat) :
    ∀ (fuel2 : Nat) (style : Style) (ctx : SerializeContext),
    styleDepth (.obj style) ≤ fuel1 → styleDepth (.obj style) ≤ fuel2 →
    serializeNestedAux fuel1 style ctx = serializeNestedAux fuel2 style ctx := by
  induction fuel1 with
  | zero =>
    intro fuel2 style ctx h1 _
    simp [styleDepth] at h1
  | succ f ih =>
    intro fuel2 style ctx h1 h2
    match fuel2 with
    | 0 => simp [styleDepth] at h2
    | g + 1 =>
      have hsub : ∀ (k : String) (e : Style) (c : SerializeContext),
          lookupObj k style = some e →
          serializeNestedAux f e c = serializeNestedAux g e c := by
        intro k e c hl
        have hd := lookupObj_depth hl
        exact ih g e c (by omega) (by omega)
      simp only [serializeNestedAux]
      congr 1
      congr 1
      congr 1
      congr 1
      congr 1
      congr 1
      congr 1
      congr 1
      all_goals (
        rcases hl : lookupObj _ style with _ | e
        · rfl
        · exact hsub _ _ _ hl)

theorem serializeNested_fuel {style : Style} {fuel : Nat} (ctx : SerializeContext)
    (h : styleDepth (.obj style) ≤ fuel) :
    serializeNested style ctx = serializeNestedAux fuel style ctx :=
  serializeNestedAux_irrel _ fuel style ctx (Nat.le_refl _) h

/-- The recursive equation of the source `serializeNested`, recovered
from the fuel-driven definition: the zero-fuel branch of
`serializeNestedAux` is dead code. -/
theorem serializeNested_eq (style : Style) (ctx : SerializeContext) :
    serializeNested style ctx =
      (let declarations := style.filterMap (fun e => declOf e.1 e.2)
       let base :=
         if declarations.isEmpty then ""
         else
           let rule := ctx.selector ++ "\x7b" ++ String.intercalate ";" declarations ++ "\x7d"
           match ctx.media with
           | some m => "@media " ++ m ++ "\x7b" ++ rule ++ "\x7d"
           | none => rule
       base
         ++ (match lookupObj "_hover" style with
             | some e => serializeNested e ⟨ctx.selector ++ ":" ++ "hover", ctx.media⟩
             | none => "")
         ++ (match lookupObj "_focus" style with
             | some e => serializeNested e ⟨ctx.selector ++ ":" ++ "focus", ctx.media⟩
             | none => "")
         ++ (match lookupObj "_active" style with
             | some e => serializeNested e ⟨ctx.selector ++ ":" ++ "active", ctx.media⟩
             | none => "")
         ++ (match lookupObj "_sm" style with
             | some e => serializeNested e ⟨ctx.selector, mergeMedia ctx.media (some "(min-width:640px)")⟩
             | none => "")
         ++ (match lookupObj "_md" style with
             | some e => serializeNested e ⟨ctx.selector, mergeMedia ctx.media (some "(min-width:768px)")⟩
             | none => "")
         ++ (match lookupObj "_lg" style with
             | some e => serializeNested e ⟨ctx.selector, mergeMedia ctx.media (some "(min-width:1024px)")⟩
             | none => "")
         ++ (match lookupObj "_xl" style with
             | some e => serializeNested e ⟨ctx.selector, mergeMedia ctx.media (some "(min-width:1280px)")⟩
             | none => "")
         ++ (match lookupObj "_xxl" style with
             | some e => serializeNested e ⟨ctx.selector, mergeMedia ctx.media (some "(min-width:1536px)")⟩
             | none => "")) := by
  have hstep : styleDepth (.obj style) = styleDepth.depthEntries style + 1 := by
    simp [styleDepth]
    omega
  have hsub : ∀ (k : String) (e : Style) (c : SerializeContext),
      lookupObj k style = some e →
      serializeNestedAux (styleDepth.depthEntries style) e c = serializeNested e c := by
    intro k e c hl
    have hd := lookupObj_depth hl
    rw [hstep] at hd
    exact serializeNestedAux_irrel _ _ e c (by omega) (Nat.le_refl _)
  show serializeNested style ctx = _
  unfold serializeNested
  rw [hstep]
  simp only [serializeNestedAux]
  congr 1
  congr 1
  congr 1
  congr 1
  congr 1
  congr 1
  congr 1
  congr 1
  all_goals (
    rcases hl : lookupObj _ style with _ | e
    · rfl
    · exact hsub _ _ _ hl)

theorem mapHas_cons {α : Type} (key : String) (hd : String × α) (tl : List (String × α)) :
    mapHas key (hd :: tl) = ((hd.1 == key) || mapHas key tl) := rfl

theorem lookup_mapReplace_self {α : Type} {key : String} (v : α) {l : List (String × α)}
    (h : mapHas key l = true) :
    List.lookup key (mapReplace key v l) = some v := by
  induction l with
  | nil => simp [mapHas] at h
  | cons hd tl ih =>
    obtain ⟨k0, v0⟩ := hd
    rw [mapHas_cons] at h
    by_cases hk : k0 = key
    · subst hk
      simp [mapReplace, List.lookup]
    · have hbeq : (k0 == key) = false := beq_false_of_ne hk
      have htl : mapHas key tl = true := by
        rw [hbeq] at h
        simpa using h
      have hkey : (key == k0) = false := beq_false_of_ne (fun h2 => hk h2.symm)
      simp only [mapReplace, hbeq, List.lookup, hkey]
      exact ih htl

theorem lookup_append_key {α : Type} {key : String} (v : α) {l : List (String × α)}
    (h : mapHas key l = false) :
    List.lookup key (l ++ [(key, v)]) = some v := by
  induction l with
  | nil => simp [List.lookup]
  | cons hd tl ih =>
    obtain ⟨k0, v0⟩ := hd
    rw [mapHas_cons] at h
    have h1 : (k0 == key) = false := by
      cases hb : (k0 == key)
      · rfl
      · rw [hb] at h; simp at h
    have htl : mapHas key tl = false := by
      rw [h1] at h; simpa using h
    have hkey : (key == k0) = false := by
      cases hb : (key == k0)
      · rfl
      · exfalso
        have hx : key = k0 := by simpa using hb
        rw [hx] at h1
        simp at h1
    simp only [List.cons_append, List.lookup, hkey]
    exact ih htl

theorem mapGet_mapSet_self {α : Type} (key : String) (v : α) (l : List (String × α)) :
    mapGet key (mapSet key v l) = some v := by
  unfold mapSet mapGet
  by_cases hh : mapHas key l = true
  · simp only [hh, if_true]
    exact lookup_mapReplace_self v hh
  · have hh2 : mapHas key l = false := by simpa using hh
    simp only [hh2, Bool.false_eq_true, if_false]
    exact lookup_append_key v hh2

theorem lookup_mapReplace_ne {α : Type} {k key : String} (hne : k ≠ key) (v : α)
    (l : List (String × α)) :
    List.lookup k (mapReplace key v l) = List.lookup k l := by
  have hkkey : (k == key) = false := beq_false_of_ne hne
  induction l with
  | nil => rfl
  | cons hd tl ih =>
    obtain ⟨k0, v0⟩ := hd
    by_cases hk : k0 = key
    · subst hk
      simp only [mapReplace, beq_self_eq_true, List.lookup, hkkey]
      exact ih
    · simp only [mapReplace, beq_false_of_ne hk, List.lookup]
      cases hb : (k == k0)
      · exact ih
      · rfl

theorem lookup_append_single_ne {α : Type} {k key : String} (hne : k ≠ key) (v : α)
    (l : List (String × α)) :
    List.lookup k (l ++ [(key, v)]) = List.lookup k l := by
  have hkkey : (k == key) = false := beq_false_of_ne hne
  induction l with
  | nil => simp [List.lookup, hkkey]
  | cons hd tl ih =>
    obtain ⟨k0, v0⟩ := hd
    simp only [List.cons_append, List.lookup]
    cases hb : (k == k0)
    · exact ih
    · rfl

theorem mapGet_mapSet_ne {α : Type} {k key : String} (hne : k ≠ key) (v : α)
    (l : List (String × α)) : mapGet k (mapSet key v l) = mapGet k l := by
  unfold mapSet mapGet
  split
  · exact lookup_mapReplace_ne hne v l
  · exact lookup_append_single_ne hne v l

/-- What one `global` call does to the rule store: the old entry for the
rule key of the selector (if any) is deleted, and the recompiled text of the
accumulated merge is appended at the end. -/
theorem global_rules_eq (ns : NextStyle) (s : String) (d : Style) :
    (ns.global s d).rules =
      (if mapHas ("global:" ++ s) ns.rules then mapDelete ("global:" ++ s) ns.rules
       else ns.rules)
      ++ [("global:" ++ s,
           postcssTransform (serializeNested
             (mergeStyle ((mapGet ("global:" ++ s) ns.globalStore).getD []) d)
             ⟨s, none⟩))] := by
  by_cases hh : mapHas ("global:" ++ s) ns.rules = true
  · simp only [NextStyle.global, hh, if_true]
    exact mapSet_of_not_has (mapHas_mapDelete_self _ _)
  · have hh2 : mapHas ("global:" ++ s) ns.rules = false := by simpa using hh
    simp only [NextStyle.global, hh2, Bool.false_eq_true, if_false]
    exact mapSet_of_not_has hh2

theorem global_store_eq (ns : NextStyle) (s : String) (d : Style) :
    (ns.global s d).globalStore =
      mapSet ("global:" ++ s)
        (mergeStyle ((mapGet ("global:" ++ s) ns.globalStore).getD []) d)
        ns.globalStore := rfl

theorem global_pfx_eq (ns : NextStyle) (s : String) (d : Style) :
    (ns.global s d).pfx = ns.pfx := rfl

theorem stringifyEntries_map (l : List (String × StyleVal)) :
    stableStringify.stringifyEntries l = l.map (fun e => (e.1, stableStringify e.2)) := by
  induction l with
  | nil => rfl
  | cons e rest ih => simp [stableStringify.stringifyEntries, ih]

/-- Sorting by key is insensitive to the order of the input when the keys are
distinct: the sorted lists of two permuted entry lists coincide. -/
theorem insertionSort_key_eq {l1 l2 : List (String × String)} (hp : l1.Perm l2)
    (hnd : (l1.map Prod.fst).Nodup) :
    List.insertionSort keyLe l1 = List.insertionSort keyLe l2 := by
  have hps1 := List.perm_insertionSort keyLe l1
  have hps2 := List.perm_insertionSort keyLe l2
  have hperm : List.Perm (List.insertionSort keyLe l1) (List.insertionSort keyLe l2) :=
    hps1.trans (hp.trans hps2.symm)
  have hnd2 : (l2.map Prod.fst).Nodup := ((hp.map Prod.fst).nodup_iff).mp hnd
  have hstrict : ∀ (l : List (String × String)), (l.map Prod.fst).Nodup →
      List.Pairwise (fun a b : String × String => a.1 < b.1)
        (List.insertionSort keyLe l) := by
    intro l hl
    have hsort : List.Sorted keyLe (List.insertionSort keyLe l) :=
      List.sorted_insertionSort keyLe l
    have hnds : ((List.insertionSort keyLe l).map Prod.fst).Nodup :=
      (((List.perm_insertionSort keyLe l).map Prod.fst).nodup_iff).mpr hl
    have hne : List.Pairwise (fun a b : String × String => a.1 ≠ b.1)
        (List.insertionSort keyLe l) := List.pairwise_map.mp hnds
    exact (hsort.and hne).imp (fun h => lt_of_le_of_ne h.1 h.2)
  haveI : IsAntisymm (String × String) (fun a b : String × String => a.1 < b.1) :=
    ⟨fun a b h1 h2 => absurd h2 (lt_asymm h1)⟩
  exact List.eq_of_perm_of_sorted hperm (hstrict l1 hnd) (hstrict l2 hnd2)

/-- The canonical serializer is insensitive to the insertion order of
object keys (at the top level of a style description with distinct
keys). -/
theorem stableStringify_obj_perm {d1 d2 : Style} (hp : d1.Perm d2)
    (hnd : (d1.map Prod.fst).Nodup) :
    stableStringify (.obj d1) = stableStringify (.obj d2) := by
  have h1 : (stableStringify.stringifyEntries d1).Perm
      (stableStringify.stringifyEntries d2) := by
    rw [stringifyEntries_map, stringifyEntries_map]
    exact hp.map _
  have hnd1 : ((stableStringify.stringifyEntries d1).map Prod.fst).Nodup := by
    rw [stringifyEntries_map]
    simpa [List.map_map, Function.comp] using hnd
  have hs := insertionSort_key_eq h1 hnd1
  simp only [stableStringify]
  rw [hs]

theorem lookupObj_singleton_ne {p k : String} (hne : p ≠ k) (v : StyleVal) :
    lookupObj p [(k, v)] = none := by
  have hb : (p == k) = false := beq_false_of_ne hne
  simp [lookupObj, List.lookup, hb]

/-- The class name returned by `css` depends only on the prefix and the
canonical serialization of the style, not on the rule store. -/
theorem css_fst_eq (ns : NextStyle) (d : Style) :
    (ns.css d).1 = ns.pfx ++ "_" ++ createHashName (stableStringify (.obj d)) := by
  simp only [NextStyle.css]
  split <;> rfl

/-- The animation name returned by `keyframes` depends only on the
prefix and the canonical serialization of the frames. -/
theorem keyframes_fst_eq (ns : NextStyle) (frames : List (String × Style)) :
    (ns.keyframes frames).1 =
      ns.pfx ++ "_" ++ createHashName
        (stableStringify (.obj (frames.map (fun f => (f.1, StyleVal.obj f.2))))) := by
  simp only [NextStyle.keyframes]
  split <;> rfl

/-- `String.intercalate` of a single piece is that piece. -/
theorem intercalate_single (s x : String) : String.intercalate s [x] = x := rfl

/-- C9: `css` on the empty style description still returns a class name
and stores a rule whose text is empty, so `toTextCss` afterwards returns
the single-newline string rather than `null`; the `null` export result
marks "no rule-defining operation was performed" (as on a fresh facade),
not "no visible CSS text was produced". -/
theorem empty_css_registers_empty_rule (pfx : String) :
    (NextStyle.make pfx).toTextCss = none ∧
    ((NextStyle.make pfx).css []).2.rules =
      [("class:" ++ ((NextStyle.make pfx).css []).1, "")] ∧
    ((NextStyle.make pfx).css []).2.toTextCss = some "\n" :=
  ⟨rfl, rfl, rfl⟩

/-- C5: a breakpoint nested inside a pseudo-state compiles to one
correctly scoped rule: the raw (pre-transform) text carries the
`:hover`-suffixed selector inside the media condition of the breakpoint
(merged with the absent outer condition), and that text is what gets
stored for the generated class. -/
theorem state_breakpoint_composition :
    ((NextStyle.make "next").css
        [("_hover", .obj [("_lg", .obj [("opacity", .num "0.5")])])]).1
      = "next_3brrgur06" ∧
    serializeNested [("_hover", .obj [("_lg", .obj [("opacity", .num "0.5")])])]
        ⟨".next_3brrgur06", none⟩
      = "@media (min-width:1024px)\x7b.next_3brrgur06:hover\x7bopacity:0.5\x7d\x7d" ∧
    ((NextStyle.make "next").css
        [("_hover", .obj [("_lg", .obj [("opacity", .num "0.5")])])]).2.rules
      = [("class:next_3brrgur06",
          "@media (min-width:1024px)\x7b.next_3brrgur06:hover\x7bopacity:0.5\x7d\x7d")] := by
  refine ⟨by decide, by decide, by decide⟩

/-- C8: every terminal action of the relation builder synthesizes the
compound selector `.<source><:state>?<combinator>.<target>` (with `+`,
`>`, `~`, and a single space as the combinators) and delegates to the
global-rule operation of the facade; in particular the chain of `when`
with source a, `hover`, and `adjacent` with target b
registers a global rule whose selector is exactly `.a:hover+.b`. -/
theorem relation_builder_selectors (ns : NextStyle) (src tgt : String)
    (style : Style) (ps : Option String) :
    (RelationBuilder.mk ns src ps).adjacent tgt style =
      ns.global ("." ++ src ++ pseudoSuffix ps ++ "+" ++ "." ++ tgt) style ∧
    (RelationBuilder.mk ns src ps).child tgt style =
      ns.global ("." ++ src ++ pseudoSuffix ps ++ ">" ++ "." ++ tgt) style ∧
    (RelationBuilder.mk ns src ps).sibling tgt style =
      ns.global ("." ++ src ++ pseudoSuffix ps ++ "~" ++ "." ++ tgt) style ∧
    (RelationBuilder.mk ns src ps).descendant tgt style =
      ns.global ("." ++ src ++ pseudoSuffix ps ++ " " ++ "." ++ tgt) style ∧
    ((ns.when "a").hover).adjacent "b" style = ns.global ".a:hover+.b" style ∧
    ((((NextStyle.make "next").when "a").hover).adjacent "b" style).rules =
      [("global:.a:hover+.b",
        postcssTransform (serializeNested (mergeStyle [] style) ⟨".a:hover+.b", none⟩))] :=
  ⟨rfl, rfl, rfl, rfl, rfl, rfl⟩

/-- C7 (counterexample): the class-name token is not always exactly nine
base-36 characters: the style with the single entry `a: 5215797` hashes
to a 64-bit value whose base-36 rendering has only eight digits, so the
token (and hence the class name) is shorter. -/
theorem short_hash_token_exists :
    ((NextStyle.make "next").css [("a", .num "5215797")]).1 = "next_ogwf0lhi" ∧
    (createHashName (stableStringify (.obj [("a", .num "5215797")]))).length = 8 :=
  ⟨by decide, by decide⟩

/-- C7 (amended): `css` returns `<prefix>_<token>` where the token is
the base-36 rendering of the 64-bit FNV-1a-style hash of the canonical
serialization, truncated by `slice(0, 9)` — hence AT MOST nine base-36
characters (usually exactly nine, but fewer when the hash value has
fewer than nine base-36 digits). -/
theorem class_name_format (ns : NextStyle) (d : Style) :
    (ns.css d).1 = ns.pfx ++ "_" ++ createHashName (stableStringify (.obj d)) ∧
    (createHashName (stableStringify (.obj d))).length ≤ 9 := by
  refine ⟨css_fst_eq ns d, ?_⟩
  unfold createHashName
  have hmk : ∀ (l : List Char), (String.mk l).length = l.length := fun _ => rfl
  rw [hmk, List.length_take]
  exact min_le_left _ _

/-- C2 (counterexample): redefining an already-defined global selector
does not keep the rule at its original position: `global` deletes the
old entry and re-inserts at the end of the insertion-ordered store, so
after `global("a", ...)`, then `css(...)`, then `global("a", ...)` the
rule for `a` has moved from the first to the last position of the
export order. -/
theorem global_redefine_moves_rule :
    (((NextStyle.make "next").global "a" [("color", .str "red")]).rules.map Prod.fst
        = ["global:a"]) ∧
    (((((NextStyle.make "next").global "a" [("color", .str "red")]).css
          [("margin", .num "0")]).2.rules.map Prod.fst)
        = ["global:a", "class:next_21rhwenz7"]) ∧
    ((((((NextStyle.make "next").global "a" [("color", .str "red")]).css
          [("margin", .num "0")]).2.global "a" [("padding", .num "0")]).rules.map Prod.fst)
        = ["class:next_21rhwenz7", "global:a"]) :=
  ⟨by decide, by decide, by decide⟩

/-- C2 (amended): redefining an already-defined global selector replaces
the stored rule text but MOVES the rule to the end of the export order: the
old entry is deleted and the recompiled text of the accumulated merge is
appended as the last entry (replacement is move-to-end, not in-place). -/
theorem global_redefine_appends_last (ns : NextStyle) (s : String) (d : Style)
    (h : mapHas ("global:" ++ s) ns.rules = true) :
    (ns.global s d).rules =
      mapDelete ("global:" ++ s) ns.rules ++
        [("global:" ++ s,
          postcssTransform (serializeNested
            (mergeStyle ((mapGet ("global:" ++ s) ns.globalStore).getD []) d)
            ⟨s, none⟩))] := by
  rw [global_rules_eq, if_pos h]

theorem global_redefine_appends_last_witness :
    ((⟨"next", [("global:a", "x"), ("k", "y")], []⟩ : NextStyle).global "a"
        [("margin", .num "0")]).rules =
      [("k", "y"), ("global:a", "a\x7bmargin:0\x7d")] := by
  have h := global_redefine_appends_last
    ⟨"next", [("global:a", "x"), ("k", "y")], []⟩ "a" [("margin", .num "0")] (by decide)
  exact h.trans (by decide)

/-- C1: two `global` calls for the same selector on a facade with no
prior accumulated description for it leave exactly one stored rule under
`global:<s>`, whose text is the compilation of the shallow merge of the
two descriptions (top-level keys of the second overwrite those of the
first, keys only in the first persist). -/
theorem global_accumulates_shallow_merge (ns : NextStyle) (s : String) (d1 d2 : Style)
    (h : mapGet ("global:" ++ s) ns.globalStore = none) :
    (((ns.global s d1).global s d2).rules.filter
        (fun e => e.1 == "global:" ++ s)) =
      [("global:" ++ s,
        postcssTransform (serializeNested (mergeStyle d1 d2) ⟨s, none⟩))] := by
  have hst1 : (ns.global s d1).globalStore =
      mapSet ("global:" ++ s) (mergeStyle [] d1) ns.globalStore := by
    rw [global_store_eq, h]
    rfl
  have hget1 : mapGet ("global:" ++ s) (ns.global s d1).globalStore =
      some (mergeStyle [] d1) := by
    rw [hst1]
    exact mapGet_mapSet_self _ _ _
  have hrules2 := global_rules_eq (ns.global s d1) s d2
  rw [hget1] at hrules2
  rw [hrules2, List.filter_append]
  have hpre : mapHas ("global:" ++ s)
      (if mapHas ("global:" ++ s) (ns.global s d1).rules then
        mapDelete ("global:" ++ s) (ns.global s d1).rules
       else (ns.global s d1).rules) = false := by
    split
    · exact mapHas_mapDelete_self _ _
    · rename_i hq
      simpa using hq
  rw [filter_key_eq_nil_of_not_has hpre]
  simp [mergeStyle_nil]

theorem global_accumulates_shallow_merge_witness :
    (((NextStyle.make "next").global "body" [("margin", .num "0")]).global "body"
        [("padding", .num "0")]).rules.filter
        (fun e => e.1 == "global:" ++ "body")
      = [("global:" ++ "body", "body\x7bmargin:0;padding:0\x7d")] := by
  have h := global_accumulates_shallow_merge (NextStyle.make "next") "body"
    [("margin", .num "0")] [("padding", .num "0")] rfl
  exact h.trans (by decide)

/-- C3: calling `css` twice with the same style description returns the
identical class-name string and leaves the state of the first call
untouched (no recompilation, no duplicate rule): the store afterwards
contains exactly one rule under `class:<name>`. -/
theorem css_at_most_once_compile (ns : NextStyle) (d : Style)
    (h : mapHas ("class:" ++ (ns.pfx ++ "_" ++ createHashName (stableStringify (.obj d))))
      ns.rules = false) :
    (ns.css d).2.css d = ns.css d ∧
    ((ns.css d).2.rules.filter
      (fun e => e.1 == "class:" ++ (ns.css d).1)).length = 1 := by
  have h1 : ns.css d =
      (ns.pfx ++ "_" ++ createHashName (stableStringify (.obj d)),
       { ns with rules :=
          ns.rules ++
            [("class:" ++ (ns.pfx ++ "_" ++ createHashName (stableStringify (.obj d))),
              postcssTransform (serializeNested d
                ⟨"." ++ (ns.pfx ++ "_" ++ createHashName (stableStringify (.obj d))), none⟩))] }) := by
    simp only [NextStyle.css, h, Bool.false_eq_true, if_false]
    rw [mapSet_of_not_has h]
  constructor
  · rw [h1]
    simp only [NextStyle.css]
    rw [if_pos (mapHas_append_singleton _ _ _)]
  · rw [h1]
    simp only []
    rw [List.filter_append, filter_key_eq_nil_of_not_has h]
    simp

theorem css_at_most_once_compile_witness :
    ((NextStyle.make "next").css [("margin", .num "0")]).2.css [("margin", .num "0")] =
      (NextStyle.make "next").css [("margin", .num "0")] ∧
    (((NextStyle.make "next").css [("margin", .num "0")]).2.rules.filter
      (fun e => e.1 == "class:" ++ ((NextStyle.make "next").css [("margin", .num "0")]).1)).length
      = 1 :=
  css_at_most_once_compile (NextStyle.make "next") [("margin", .num "0")] (by decide)

/-- C10: `css`, `keyframes` and `fontFace` leave every previously stored
rule (key and text) unchanged and can only append one new entry under
their own rule key (`class:`, `@keyframes:`, `@font-face:` followed by
the identifier); `global` modifies at most the rule entry keyed
`global:<s>` (plus the accumulator entry for that key) and never touches
a stored rule of another key. -/
theorem rule_defining_frame_effects :
    (∀ (ns : NextStyle) (d : Style),
      (ns.css d).2.rules = ns.rules ∨
      ∃ t, (ns.css d).2.rules = ns.rules ++ [("class:" ++ (ns.css d).1, t)]) ∧
    (∀ (ns : NextStyle) (frames : List (String × Style)),
      (ns.keyframes frames).2.rules = ns.rules ∨
      ∃ t, (ns.keyframes frames).2.rules =
        ns.rules ++ [("@keyframes:" ++ (ns.keyframes frames).1, t)]) ∧
    (∀ (ns : NextStyle) (font : Style),
      (ns.fontFace font).rules = ns.rules ∨
      ∃ t, (ns.fontFace font).rules =
        ns.rules ++ [("@font-face:" ++ createHashName (stableStringify (.obj font)), t)]) ∧
    (∀ (ns : NextStyle) (s : String) (d : Style),
      (∀ e ∈ ns.rules, e.1 ≠ "global:" ++ s → e ∈ (ns.global s d).rules) ∧
      (∀ e ∈ (ns.global s d).rules, e ∈ ns.rules ∨ e.1 = "global:" ++ s) ∧
      (∀ k, k ≠ "global:" ++ s →
        mapGet k (ns.global s d).globalStore = mapGet k ns.globalStore)) := by
  refine ⟨?_, ?_, ?_, ?_⟩
  · intro ns d
    by_cases hh : mapHas ("class:" ++ (ns.pfx ++ "_" ++ createHashName (stableStringify (.obj d))))
        ns.rules = true
    · left
      simp only [NextStyle.css, hh, if_true]
    · right
      have hh2 : mapHas ("class:" ++ (ns.pfx ++ "_" ++ createHashName (stableStringify (.obj d))))
          ns.rules = false := by simpa using hh
      refine ⟨postcssTransform (serializeNested d
        ⟨"." ++ (ns.pfx ++ "_" ++ createHashName (stableStringify (.obj d))), none⟩), ?_⟩
      simp only [NextStyle.css, hh2, Bool.false_eq_true, if_false]
      rw [mapSet_of_not_has hh2]
  · intro ns frames
    by_cases hh : mapHas ("@keyframes:" ++ (ns.pfx ++ "_" ++ createHashName
        (stableStringify (.obj (frames.map (fun f => (f.1, StyleVal.obj f.2)))))))
        ns.rules = true
    · left
      simp only [NextStyle.keyframes, hh, if_true]
    · right
      have hh2 : mapHas ("@keyframes:" ++ (ns.pfx ++ "_" ++ createHashName
          (stableStringify (.obj (frames.map (fun f => (f.1, StyleVal.obj f.2)))))))
          ns.rules = false := by simpa using hh
      simp only [NextStyle.keyframes, hh2, Bool.false_eq_true, if_false,
        mapSet_of_not_has hh2]
      exact ⟨_, rfl⟩
  · intro ns font
    by_cases hh : mapHas ("@font-face:" ++ createHashName (stableStringify (.obj font)))
        ns.rules = true
    · left
      simp only [NextStyle.fontFace, hh, if_true]
    · right
      have hh2 : mapHas ("@font-face:" ++ createHashName (stableStringify (.obj font)))
          ns.rules = false := by simpa using hh
      simp only [NextStyle.fontFace, hh2, Bool.false_eq_true, if_false,
        mapSet_of_not_has hh2]
      exact ⟨_, rfl⟩
  · intro ns s d
    refine ⟨?_, ?_, ?_⟩
    · intro e he hne
      rw [global_rules_eq]
      apply List.mem_append_left
      split
      · exact mem_mapDelete_of_ne he hne
      · exact he
    · intro e he
      rw [global_rules_eq] at he
      rcases List.mem_append.mp he with hl | hr
      · left
        revert hl
        split
        · intro hl
          exact mapDelete_subset hl
        · intro hl
          exact hl
      · right
        have : e = ("global:" ++ s, _) := List.mem_singleton.mp hr
        rw [this]
    · intro k hk
      rw [global_store_eq]
      exact mapGet_mapSet_ne hk _ _

theorem rule_defining_frame_effects_witness :
    ("class:x", "t") ∈
      ((⟨"next", [("class:x", "t")], []⟩ : NextStyle).global "body" []).rules :=
  (rule_defining_frame_effects.2.2.2 ⟨"next", [("class:x", "t")], []⟩ "body" []).1
    ("class:x", "t") (by decide) (by decide)

/-- C4: two style descriptions that are permutations of one another
(structurally equal content, different key insertion order, distinct
keys) receive the same class name from `css`, because the canonical
serializer sorts object keys before hashing. -/
theorem css_key_order_invariance (ns : NextStyle) (d1 d2 : Style)
    (hp : List.Perm d1 d2) (hnd : (d1.map Prod.fst).Nodup) :
    (ns.css d1).1 = (ns.css d2).1 := by
  rw [css_fst_eq, css_fst_eq, stableStringify_obj_perm hp hnd]

theorem css_key_order_invariance_witness :
    ((NextStyle.make "next").css [("a", .num "1"), ("b", .num "2")]).1 =
      ((NextStyle.make "next").css [("b", .num "2"), ("a", .num "1")]).1 :=
  css_key_order_invariance (NextStyle.make "next")
    [("a", .num "1"), ("b", .num "2")] [("b", .num "2"), ("a", .num "1")]
    (List.Perm.swap _ _ _) (by decide)

/-- C6 (counterexample): an unrecognized underscore-prefixed key with a
scalar value is NOT emitted as a literal declaration: the top-level loop
skips every key starting with `_` (recognized or not), so
a style whose only entry maps the key `_foo` to the string value `bar`
compiles to empty rule text instead of a rule containing `_foo:bar`. -/
theorem underscore_scalar_key_dropped :
    declOf "_foo" (.str "bar") = none ∧
    serializeNested [("_foo", .str "bar")] ⟨".x", none⟩ = "" ∧
    ("" : String) ≠ ".x\x7b_foo:bar\x7d" :=
  ⟨by decide, by decide, by decide⟩

/-- C6 (amended): within the domain of the original claim — keys that
are NOT one of the eight recognized reserved keys — a scalar-valued key
is treated as a literal declaration exactly when it does not start with
the underscore sigil: a non-underscore scalar key (custom-property keys
such as `--x` included) is emitted as `hyphenated-key:value`, while an
unrecognized underscore-prefixed key such as `_foo` is skipped by the
declaration loop and, being none of the reserved keys the pseudo and
breakpoint loops look up, produces no output at all.  (A reserved key
holding an out-of-type truthy scalar is outside this statement: there
the untyped source recurses into the scalar itself.) -/
theorem scalar_key_declaration_emission (k : String) (v : StyleVal) (sel : String)
    (hscalar : isScalarVal v = true)
    (hres : k ∉ ["_hover", "_focus", "_active", "_sm", "_md", "_lg", "_xl", "_xxl"]) :
    (startsWithUnderscore k = false →
      serializeNested [(k, v)] ⟨sel, none⟩ =
        sel ++ "\x7b" ++ toKebabCase k ++ ":" ++ renderValue v ++ "\x7d") ∧
    (startsWithUnderscore k = true →
      serializeNested [(k, v)] ⟨sel, none⟩ = "") := by
  have hdepth : styleDepth (.obj [(k, v)]) = 0 + 1 := by
    cases v <;> simp_all [styleDepth, styleDepth.depthEntries, isScalarVal]
  have hser : serializeNested [(k, v)] ⟨sel, none⟩ =
      serializeNestedAux (0 + 1) [(k, v)] ⟨sel, none⟩ := by
    unfold serializeNested
    rw [hdepth]
  have hner : ∀ p ∈ ["_hover", "_focus", "_active", "_sm", "_md", "_lg", "_xl", "_xxl"],
      p ≠ k := fun p hp heq => hres (heq ▸ hp)
  have e1 : lookupObj "_hover" [(k, v)] = none :=
    lookupObj_singleton_ne (hner _ (by decide)) v
  have e2 : lookupObj "_focus" [(k, v)] = none :=
    lookupObj_singleton_ne (hner _ (by decide)) v
  have e3 : lookupObj "_active" [(k, v)] = none :=
    lookupObj_singleton_ne (hner _ (by decide)) v
  have e4 : lookupObj "_sm" [(k, v)] = none :=
    lookupObj_singleton_ne (hner _ (by decide)) v
  have e5 : lookupObj "_md" [(k, v)] = none :=
    lookupObj_singleton_ne (hner _ (by decide)) v
  have e6 : lookupObj "_lg" [(k, v)] = none :=
    lookupObj_singleton_ne (hner _ (by decide)) v
  have e7 : lookupObj "_xl" [(k, v)] = none :=
    lookupObj_singleton_ne (hner _ (by decide)) v
  have e8 : lookupObj "_xxl" [(k, v)] = none :=
    lookupObj_singleton_ne (hner _ (by decide)) v
  constructor
  · intro h0
    rw [hser]
    simp only [serializeNestedAux, e1, e2, e3, e4, e5, e6, e7, e8]
    cases v with
    | str s =>
      simp [declOf, h0, renderValue, intercalate_single, String.append_assoc]
    | num n =>
      simp [declOf, h0, renderValue, intercalate_single, String.append_assoc]
    | null => simp [isScalarVal] at hscalar
    | arr items => simp [isScalarVal] at hscalar
    | obj entries => simp [isScalarVal] at hscalar
  · intro h1
    rw [hser]
    simp only [serializeNestedAux, e1, e2, e3, e4, e5, e6, e7, e8]
    cases v with
    | str s => simp [declOf, h1]
    | num n => simp [declOf, h1]
    | null => simp [isScalarVal] at hscalar
    | arr items => simp [isScalarVal] at hscalar
    | obj entries => simp [isScalarVal] at hscalar

theorem scalar_key_declaration_emission_witness :
    serializeNested [("fontSize", .str "1px")] ⟨".x", none⟩ = ".x\x7bfont-size:1px\x7d" ∧
    serializeNested [("_bar", .num "7")] ⟨".x", none⟩ = "" := by
  constructor
  · have h := (scalar_key_declaration_emission "fontSize" (.str "1px") ".x"
      (by decide) (by decide)).1 (by decide)
    exact h.trans (by decide)
  · exact (scalar_key_declaration_emission "_bar" (.num "7") ".x"
      (by decide) (by decide)).2 (by decide)
